import Mathlib

/-!
Verification development for the `moca_figures` utilities
(`src/utils.py`): shallow embedding of the Gaussian-mixture
discriminant wrapper (`Gmm`), the linear-discriminant wrapper (`Lda`),
the dataset loader (`read_data`), the stratified cross-validation
driver (`auc_by_stratified_cv`) and the covariance-to-correlation
helper (`cov2corr`), together with theorems about the behaviour of
these functions.

Real-valued scores are embedded as rationals; numpy arrays become
functions out of `Fin` or lists.  External collaborators (the `moca`
package and scikit-learn) are not part of the repository source, so
they are modelled at the interfaces documented in the specification:
`stats.is_rank`, the EM estimate produced by
`sklearn.mixture.GaussianMixture.fit`, the fitted linear form of
`sklearn.discriminant_analysis.LinearDiscriminantAnalysis`, the fold
generator `cv.stratified_kfold` and the ROC function `stats.roc`.
-/

/-- Error raised by `get_scores` when the rank-validity precondition
fails (a bare `ValueError` in the source). -/
inductive MocaError where
  | invalidInput
  deriving DecidableEq

/-- Modelled from the spec: `moca.stats.is_rank`, the external rank
validity check, is missing from `src/`.  Per the specification a score
matrix is rank-valid when every column is a valid rank-transformed
vector, i.e. the M entries of each column are exactly the ranks
1, ..., M. -/
def is_rank {M N : ℕ} (data : Fin M → Fin N → ℚ) : Bool :=
  decide (∀ j : Fin N, ∀ r : Fin M, ∃ i : Fin M, data i j = ((r : ℕ) : ℚ) + 1)

/-- The parameters estimated by the external EM fit
(`self._gmm.fit(data.T)` in `Gmm.fit`): for each of the two mixture
components a weight, an M-vector of means and an M-vector of diagonal
covariances.  Component `c`, feature `j` is `means c j` etc., matching
`means_[components, features]` in the source. -/
structure EmEstimate (M : ℕ) where
  weights : Fin 2 → ℚ
  means : Fin 2 → Fin M → ℚ
  covariances : Fin 2 → Fin M → ℚ

/-- The state of a `Gmm` instance after `fit`: the EM parameter
estimate held by `self._gmm` plus the resolved component indices
`self._pos_idx`, `self._negative_idx` and `self.prevalence`. -/
structure GmmFitted (M : ℕ) where
  weights : Fin 2 → ℚ
  means : Fin 2 → Fin M → ℚ
  covariances : Fin 2 → Fin M → ℚ
  pos_idx : Fin 2
  negative_idx : Fin 2
  prevalence : ℚ

/-- Embedding of `Gmm.fit` (src/utils.py lines 59-85) after the
external EM call: component 1 is tentatively positive and component 0
tentatively negative, `delta = means[negative] - means[positive]` is
binarized at `> 0`, and when `M/2 < sum(delta)` the component indices
are swapped; `prevalence` is the weight of the positive index in
effect. -/
def Gmm.fit {M : ℕ} (em : EmEstimate M) : GmmFitted M :=
  let pos_idx : Fin 2 := 1
  let negative_idx : Fin 2 := 0
  let deltaPosCount : ℕ :=
    (Finset.univ.filter fun j : Fin M =>
      0 < em.means negative_idx j - em.means pos_idx j).card
  if (M : ℚ) / 2 < (deltaPosCount : ℚ) then
    ⟨em.weights, em.means, em.covariances, 0, 1, em.weights 0⟩
  else
    ⟨em.weights, em.means, em.covariances, 1, 0, em.weights 1⟩

/-- The per-sample score accumulation of `Gmm.get_scores`
(src/utils.py lines 91-112): starting from `s[i] = 0`, the inner loop
over features adds the quadratic term
`(1/cov[pos,j] - 1/cov[neg,j]) * x[j]^2` and then the linear term
`2*(means[neg,j]/cov[neg,j] - means[pos,j]/cov[pos,j]) * x[j]`. -/
def Gmm.scoreSample {M : ℕ} (st : GmmFitted M) (x : Fin M → ℚ) : ℚ :=
  (List.finRange M).foldl (fun s j =>
    let s1 := s + (1 / st.covariances st.pos_idx j
        - 1 / st.covariances st.negative_idx j) * x j ^ 2
    s1 + 2 * (st.means st.negative_idx j / st.covariances st.negative_idx j
        - st.means st.pos_idx j / st.covariances st.pos_idx j) * x j) 0

/-- Embedding of `Gmm.get_scores` (src/utils.py lines 87-112): raise
on non-rank input, otherwise return the vector of per-sample
accumulated scores. -/
def Gmm.get_scores {M N : ℕ} (st : GmmFitted M) (data : Fin M → Fin N → ℚ) :
    Except MocaError (List ℚ) :=
  if is_rank data then
    Except.ok (List.ofFn fun i : Fin N => Gmm.scoreSample st fun j => data j i)
  else
    Except.error MocaError.invalidInput

/-- The per-sample scoring formula exactly as the specification words
it: `(1/var_neg[j] - 1/var_pos[j]) * x[j]^2` plus
`2*(mean_neg[j]/var_neg[j] - mean_pos[j]/var_pos[j]) * x[j]`, summed
over features.  Stated for comparison against `Gmm.scoreSample`. -/
def Gmm.specScoreSample {M : ℕ} (st : GmmFitted M) (x : Fin M → ℚ) : ℚ :=
  ∑ j : Fin M, ((1 / st.covariances st.negative_idx j
      - 1 / st.covariances st.pos_idx j) * x j ^ 2
    + 2 * (st.means st.negative_idx j / st.covariances st.negative_idx j
        - st.means st.pos_idx j / st.covariances st.pos_idx j) * x j)

/-- A two-term `foldl` accumulation is the sum of the combined terms. -/
theorem foldl_add_pair {α : Type} (f g : α → ℚ) :
    ∀ (xs : List α) (c : ℚ),
      xs.foldl (fun s j => s + f j + g j) c = c + (xs.map fun j => f j + g j).sum := by
  intro xs
  induction xs with
  | nil => intro c; simp
  | cons a tl ih =>
      intro c
      rw [List.foldl_cons, ih, List.map_cons, List.sum_cons]
      ring

/-- Closed form of the score-accumulation loop. -/
theorem Gmm.scoreSample_eq_sum {M : ℕ} (st : GmmFitted M) (x : Fin M → ℚ) :
    Gmm.scoreSample st x = ∑ j : Fin M,
      ((1 / st.covariances st.pos_idx j - 1 / st.covariances st.negative_idx j) * x j ^ 2
        + 2 * (st.means st.negative_idx j / st.covariances st.negative_idx j
            - st.means st.pos_idx j / st.covariances st.pos_idx j) * x j) := by
  have h := foldl_add_pair
    (fun j : Fin M => (1 / st.covariances st.pos_idx j
      - 1 / st.covariances st.negative_idx j) * x j ^ 2)
    (fun j : Fin M => 2 * (st.means st.negative_idx j / st.covariances st.negative_idx j
      - st.means st.pos_idx j / st.covariances st.pos_idx j) * x j)
    (List.finRange M) 0
  simp only [Gmm.scoreSample]
  rw [h, Fin.sum_univ_def]
  simp

/-- Concrete EM estimate used to compare code and spec scoring:
one feature, equal weights, zero means, tentative-negative variance 2
and tentative-positive variance 1. -/
def emC1 : EmEstimate 1 :=
  ⟨fun _ => 1 / 2, fun _ _ => 0, fun c _ => if c = 0 then 2 else 1⟩

/-- The fitted discriminant obtained from `emC1` (see `stC1_eq_fit`). -/
def stC1 : GmmFitted 1 :=
  ⟨fun _ => 1 / 2, fun _ _ => 0, fun c _ => if c = 0 then 2 else 1, 1, 0, 1 / 2⟩

/-- A rank-valid 1-by-1 test matrix. -/
def dataC1 : Fin 1 → Fin 1 → ℚ := fun _ _ => 1

theorem emC1_filter_empty : (Finset.univ.filter fun j : Fin 1 =>
    0 < emC1.means 0 j - emC1.means 1 j) = ∅ := by
  ext j
  simp [emC1]

theorem stC1_eq_fit : Gmm.fit emC1 = stC1 := by
  simp only [Gmm.fit, emC1_filter_empty]
  norm_num [stC1, emC1]

theorem is_rank_dataC1 : is_rank dataC1 = true := by
  rw [is_rank, decide_eq_true_eq]
  intro j r
  have hr : (r : ℕ) = 0 := Nat.lt_one_iff.mp r.isLt
  exact ⟨0, by simp [dataC1, hr]⟩

theorem gmm_scoresC1 : Gmm.get_scores stC1 dataC1 = Except.ok [1 / 2] := by
  rw [Gmm.get_scores, if_pos is_rank_dataC1]
  refine congrArg Except.ok ?_
  have hofn : (List.ofFn fun i : Fin 1 => Gmm.scoreSample stC1 fun j => dataC1 j i) =
      [Gmm.scoreSample stC1 fun j => dataC1 j 0] := rfl
  rw [hofn, Gmm.scoreSample_eq_sum, Fin.sum_univ_one]
  norm_num [stC1, dataC1]

theorem spec_scoreC1 : Gmm.specScoreSample stC1 (fun j => dataC1 j 0) = -(1 / 2) := by
  rw [Gmm.specScoreSample, Fin.sum_univ_one]
  norm_num [stC1, dataC1]

/-- C1 counterexample: on the fitted discriminant `stC1` (reachable
as `Gmm.fit emC1`) and the rank-valid matrix `dataC1`,
`Gmm.get_scores` returns `1/2` for the single sample, while the
specification formula gives `-1/2`; the returned vector is not the
spec-formula vector. -/
theorem c1_spec_formula_counterexample :
    Gmm.fit emC1 = stC1
    ∧ is_rank dataC1 = true
    ∧ Gmm.get_scores stC1 dataC1 = Except.ok [1 / 2]
    ∧ Gmm.specScoreSample stC1 (fun j => dataC1 j 0) = -(1 / 2)
    ∧ Gmm.get_scores stC1 dataC1
        ≠ Except.ok [Gmm.specScoreSample stC1 (fun j => dataC1 j 0)] := by
  refine ⟨stC1_eq_fit, is_rank_dataC1, gmm_scoresC1, spec_scoreC1, ?_⟩
  rw [gmm_scoresC1, spec_scoreC1]
  intro h
  have h2 : (1 : ℚ) / 2 = -(1 / 2) := List.cons.injEq .. |>.mp (Except.ok.inj h) |>.1
  norm_num at h2

/-- C1 (amended): for every fitted Gaussian-mixture discriminant and
every rank-valid M-by-K' test matrix, `get_scores` returns for each
sample vector x the value `sum_j ((1/var_pos[j] - 1/var_neg[j]) * x[j]^2
+ 2*(mean_neg[j]/var_neg[j] - mean_pos[j]/var_pos[j]) * x[j])`, where
neg and pos are the resolved negative and positive components (the
quadratic coefficient is the difference of reciprocal variances taken
positive-minus-negative, the opposite order from the spec text). -/
theorem c1_gmm_scores_closed_form {M N : ℕ} (st : GmmFitted M)
    (data : Fin M → Fin N → ℚ) (h : is_rank data = true) :
    Gmm.get_scores st data = Except.ok (List.ofFn fun i : Fin N =>
      ∑ j : Fin M, ((1 / st.covariances st.pos_idx j
          - 1 / st.covariances st.negative_idx j) * data j i ^ 2
        + 2 * (st.means st.negative_idx j / st.covariances st.negative_idx j
            - st.means st.pos_idx j / st.covariances st.pos_idx j) * data j i)) := by
  simp only [Gmm.get_scores, h, if_true]
  refine congrArg Except.ok ?_
  refine congrArg List.ofFn ?_
  funext i
  exact Gmm.scoreSample_eq_sum st fun j => data j i

/-- C1 witness: the amended closed form applies at the concrete
rank-valid input `dataC1`. -/
theorem c1_gmm_scores_closed_form_witness :
    is_rank dataC1 = true
    ∧ Gmm.get_scores stC1 dataC1 = Except.ok (List.ofFn fun i : Fin 1 =>
        ∑ j : Fin 1, ((1 / stC1.covariances stC1.pos_idx j
            - 1 / stC1.covariances stC1.negative_idx j) * dataC1 j i ^ 2
          + 2 * (stC1.means stC1.negative_idx j / stC1.covariances stC1.negative_idx j
              - stC1.means stC1.pos_idx j / stC1.covariances stC1.pos_idx j) * dataC1 j i)) :=
  ⟨is_rank_dataC1, c1_gmm_scores_closed_form stC1 dataC1 is_rank_dataC1⟩

/-- C2: after `Gmm.fit`, the component indices are swapped (positive
index 0, negative index 1) exactly when strictly more than half of the
M features have `means[0,j] - means[1,j] > 0` (component 1 being the
tentative positive), and `prevalence` is the weight of the resolved
positive component. -/
theorem c2_label_resolution {M : ℕ} (em : EmEstimate M) :
    (((Gmm.fit em).pos_idx = 0 ∧ (Gmm.fit em).negative_idx = 1) ↔
      M < 2 * (Finset.univ.filter fun j : Fin M =>
        0 < em.means 0 j - em.means 1 j).card)
    ∧ (Gmm.fit em).prevalence = em.weights (Gmm.fit em).pos_idx := by
  have hc : ((M : ℚ) / 2 < ((Finset.univ.filter fun j : Fin M =>
      0 < em.means 0 j - em.means 1 j).card : ℚ)) ↔
      M < 2 * (Finset.univ.filter fun j : Fin M =>
        0 < em.means 0 j - em.means 1 j).card := by
    rw [div_lt_iff₀ (by norm_num : (0 : ℚ) < 2), mul_comm]
    exact_mod_cast Iff.rfl
  simp only [Gmm.fit]
  by_cases h : (M : ℚ) / 2 < ((Finset.univ.filter fun j : Fin M =>
      0 < em.means 0 j - em.means 1 j).card : ℚ)
  · rw [if_pos h]
    exact ⟨⟨fun _ => hc.mp h, fun _ => ⟨rfl, rfl⟩⟩, rfl⟩
  · rw [if_neg h]
    refine ⟨⟨fun hcontra => ?_, fun hlt => absurd (hc.mpr hlt) h⟩, rfl⟩
    have h1 : (1 : Fin 2) = 0 := hcontra.1
    exact absurd h1 (by decide)

/-- The state of an `Lda` instance after `fit`.  Modelled from the
spec: the fitted scikit-learn `LinearDiscriminantAnalysis` held in
`self._lda` is external to the repository; per the specification
(section 4.3) its `decision_function` is a fitted linear form, the
signed distance from the decision boundary, so the fitted state is a
coefficient vector and an intercept. -/
structure LdaFitted (M : ℕ) where
  coef : Fin M → ℚ
  intercept : ℚ

/-- Embedding of `Lda.get_scores` (src/utils.py lines 41-45): raise on
non-rank input, otherwise return the decision-function values of the
transposed data, one per sample. -/
def Lda.get_scores {M N : ℕ} (st : LdaFitted M) (data : Fin M → Fin N → ℚ) :
    Except MocaError (List ℚ) :=
  if is_rank data then
    Except.ok (List.ofFn fun i : Fin N => (∑ j : Fin M, st.coef j * data j i) + st.intercept)
  else
    Except.error MocaError.invalidInput

/-- C4: for both classifier strategies and every input matrix,
`get_scores` returns the invalid-input error exactly when the input
fails the rank-validity check, and returns a score vector exactly when
the input is rank-valid; the error is the only failure and is returned
directly (no internal retry). -/
theorem c4_get_scores_rank_gate {M N : ℕ} (gst : GmmFitted M) (lst : LdaFitted M)
    (data : Fin M → Fin N → ℚ) :
    (Gmm.get_scores gst data = Except.error MocaError.invalidInput ↔ is_rank data = false)
    ∧ (Lda.get_scores lst data = Except.error MocaError.invalidInput ↔ is_rank data = false)
    ∧ ((∃ v, Gmm.get_scores gst data = Except.ok v) ↔ is_rank data = true)
    ∧ ((∃ v, Lda.get_scores lst data = Except.ok v) ↔ is_rank data = true) := by
  cases h : is_rank data <;>
    simp [Gmm.get_scores, Lda.get_scores, h]

/-- Embedding of `cov2corr` (src/utils.py lines 287-292).  The square
root is the external `np.sqrt`, abstracted as a function parameter.
The inner loop runs over `j` in `range(1, n)`, so column 0 of the
intermediate `corr` stays at its zero initialisation; the result is
`corr + corr.T + eye(n)`. -/
def cov2corr {n : ℕ} (sqrtF : ℚ → ℚ) (c : Matrix (Fin n) (Fin n) ℚ) :
    Matrix (Fin n) (Fin n) ℚ :=
  let corr : Matrix (Fin n) (Fin n) ℚ :=
    Matrix.of fun i j => if 0 < (j : ℕ) then c i j / sqrtF (c i i * c j j) else 0
  corr + corr.transpose + 1

/-- C9: for every square matrix with nonzero diagonal entries (and in
fact for every square matrix), `cov2corr` returns a symmetric matrix:
entry (i, j) equals entry (j, i), because the result is built as
`corr + corr.T + I`. -/
theorem c9_cov2corr_symmetric {n : ℕ} (sqrtF : ℚ → ℚ) (c : Matrix (Fin n) (Fin n) ℚ)
    (hdiag : ∀ i, c i i ≠ 0) :
    ∀ i j, cov2corr sqrtF c i j = cov2corr sqrtF c j i := by
  intro i j
  simp only [cov2corr, Matrix.add_apply, Matrix.transpose_apply, Matrix.of_apply]
  have hone : (1 : Matrix (Fin n) (Fin n) ℚ) i j = (1 : Matrix (Fin n) (Fin n) ℚ) j i := by
    rw [Matrix.one_apply, Matrix.one_apply]
    by_cases hij : i = j
    · subst hij; rfl
    · rw [if_neg hij, if_neg fun h => hij h.symm]
  rw [hone]
  ring

/-- Concrete covariance matrix for the C9 witness. -/
def covC9 : Matrix (Fin 2) (Fin 2) ℚ :=
  Matrix.of fun i j => if i = j then (if (i : ℕ) = 0 then 4 else 9) else (if (i : ℕ) = 0 then 1 else 2)

/-- C9 witness: the symmetry theorem applies to the concrete
asymmetric matrix `covC9`, whose diagonal entries are nonzero. -/
theorem c9_cov2corr_symmetric_witness :
    (∀ i, covC9 i i ≠ 0)
    ∧ (∀ i j, cov2corr (fun q => q) covC9 i j = cov2corr (fun q => q) covC9 j i) :=
  ⟨fun i => by fin_cases i <;> norm_num [covC9],
   c9_cov2corr_symmetric (fun q => q) covC9
     (fun i => by fin_cases i <;> norm_num [covC9])⟩

/-- Errors raised by `read_data` (all bare `ValueError`s in the
source, distinguished here by their messages): duplicate team names,
undecomposable header, bad sample label, and a malformed data cell
(reported with the line index and the joined row content). -/
inductive ReadError where
  | duplicateTeamNames
  | couldNotDecompose
  | incorrectSampleLabel (tok : String)
  | malformedRow (line : ℕ) (content : String)
  deriving DecidableEq

/-- Consume one optional sign character, as `[+-]?` does. -/
def optSignChars : List Char → List Char
  | [] => []
  | ch :: rest => if ch = '+' ∨ ch = '-' then rest else ch :: rest

/-- Consume one optional occurrence of the character `a`, as `a?`
does. -/
def optChar (a : Char) : List Char → List Char
  | [] => []
  | ch :: rest => if ch = a then rest else ch :: rest

/-- Matcher for the default `datum_regex` of `read_data`
(src/utils.py line 116), the anchored pattern
sign? digits* dot? digits* E? e? sign? digits* .
Each component is matched greedily; for this particular pattern greedy
sequential matching accepts exactly the same strings as backtracking
regex matching, because no character consumed by an optional component
can be consumed by any later component instead without leaving an
unmatchable character behind. -/
def datumMatchChars (l : List Char) : Bool :=
  let l1 := optSignChars l
  let l2 := l1.dropWhile Char.isDigit
  let l3 := optChar '.' l2
  let l4 := l3.dropWhile Char.isDigit
  let l5 := optChar 'E' l4
  let l6 := optChar 'e' l5
  let l7 := optSignChars l6
  let l8 := l7.dropWhile Char.isDigit
  l8.isEmpty

/-- `re.match(datum_regex, s)` on a whole token. -/
def datumMatch (s : String) : Bool := datumMatchChars s.toList

/-- Embedding of the per-cell score parsing of `read_data`
(src/utils.py lines 212-225): empty cell and literal `NaN` become the
missing value (`none`), a cell matching the datum pattern becomes its
numeric value, anything else raises an error reporting the file line
index and the comma-joined row.  Numeric conversion (`np.float64`) is
external and abstracted as `toVal`.  The second test for the empty
string in the `NaN` branch is kept from the source, where it is
unreachable. -/
def parseCell (toVal : String → ℚ) (i : ℕ) (tline : List String) (val : String) :
    Except ReadError (Option ℚ) :=
  if val = "" then Except.ok none
  else if datumMatch val then Except.ok (some (toVal val))
  else if val = "NaN" ∨ val = "" then Except.ok none
  else Except.error (ReadError.malformedRow i (String.intercalate "," tline))

/-- Embedding of the sample-label validity check of `read_data`
(src/utils.py lines 204-207): raise the incorrect-sample-label error
when the label token does not match the datum pattern. -/
def checkLabel (tok : String) : Except ReadError Unit :=
  if datumMatch tok then Except.ok () else Except.error (ReadError.incorrectSampleLabel tok)

/-- C8: each classifier-score cell parses as: empty cell to missing
value; a token matching the numeric pattern to its numeric value; the
literal `NaN` to missing value; any other token to an error carrying
the offending row's line index and its raw comma-joined content. -/
theorem c8_cell_parsing (toVal : String → ℚ) (i : ℕ) (tline : List String) (val : String) :
    parseCell toVal i tline "" = Except.ok none
    ∧ (val ≠ "" → datumMatch val = true →
        parseCell toVal i tline val = Except.ok (some (toVal val)))
    ∧ parseCell toVal i tline "NaN" = Except.ok none
    ∧ (val ≠ "" → datumMatch val = false → val ≠ "NaN" →
        parseCell toVal i tline val
          = Except.error (ReadError.malformedRow i (String.intercalate "," tline))) := by
  refine ⟨rfl, fun h1 h2 => ?_, rfl, fun h1 h2 h3 => ?_⟩
  · simp only [parseCell]
    rw [if_neg h1, if_pos h2]
  · simp only [parseCell]
    rw [if_neg h1, if_neg (by simp [h2]), if_neg (not_or.mpr ⟨h3, h1⟩)]

/-- C8 witness: the malformed-cell branch applies to the token
`abc` in row 3 with content `a,b`. -/
theorem c8_cell_parsing_witness :
    parseCell (fun _ => (0 : ℚ)) 3 ["a", "b"] "abc"
      = Except.error (ReadError.malformedRow 3 "a,b") :=
  (c8_cell_parsing (fun _ => (0 : ℚ)) 3 ["a", "b"] "abc").2.2.2
    (by decide) (by decide) (by decide)

/-- C10: the default numeric pattern matches the empty string (every
component is optional), so an empty `class` cell passes the label
check and is never reported through the incorrect-sample-label error,
which is raised exactly for label tokens failing the numeric pattern,
such as alphabetic text. -/
theorem c10_empty_label_passes :
    datumMatch "" = true
    ∧ checkLabel "" = Except.ok ()
    ∧ (∀ tok : String,
        checkLabel tok = Except.error (ReadError.incorrectSampleLabel tok)
          ↔ datumMatch tok = false)
    ∧ checkLabel "abc" = Except.error (ReadError.incorrectSampleLabel "abc") := by
  refine ⟨rfl, rfl, ?_, rfl⟩
  intro tok
  cases h : datumMatch tok <;> simp [checkLabel, h]

/-- The header state accumulated by the first pass of `read_data`
(src/utils.py lines 159-185): classifier team names, their column
indices, and the column index of the `class` column. -/
structure HeaderInfo where
  cls_names : List String
  score_col_idx : List ℕ
  label_col_idx : Option ℕ
  deriving DecidableEq

/-- Embedding of the header loop of `read_data`: a field equal to
`class` records the label column and moves on; otherwise a field
already among the collected team names is a duplicate error; otherwise
a field matching the method pattern `m` is appended with its column
index. -/
def headerLoop (m : String → Bool) : ℕ → HeaderInfo → List String → Except ReadError HeaderInfo
  | _, acc, [] => Except.ok acc
  | j, acc, field :: rest =>
    if field = "class" then
      headerLoop m (j + 1) ⟨acc.cls_names, acc.score_col_idx, some j⟩ rest
    else if field ∈ acc.cls_names then
      Except.error ReadError.duplicateTeamNames
    else if m field then
      headerLoop m (j + 1)
        ⟨acc.cls_names ++ [field], acc.score_col_idx ++ [j], acc.label_col_idx⟩ rest
    else
      headerLoop m (j + 1) acc rest

/-- Embedding of the header decomposition of `read_data`: run the
header loop over the header fields starting from the empty state, then
fail when no score column was identified or no `class` column was
seen. -/
def decomposeHeader (m : String → Bool) (fields : List String) : Except ReadError HeaderInfo :=
  match headerLoop m 0 ⟨[], [], none⟩ fields with
  | Except.error e => Except.error e
  | Except.ok h =>
    if h.score_col_idx.length = 0 ∨ h.label_col_idx = none then
      Except.error ReadError.couldNotDecompose
    else
      Except.ok h

/-- A header field is collected as a score column when it is not the
`class` field and matches the method pattern. -/
def isScoreField (m : String → Bool) (f : String) : Bool :=
  (!(f == "class")) && m f

/-- The header fields that the loop collects as classifier columns, in
order. -/
def matchedFields (m : String → Bool) (fields : List String) : List String :=
  fields.filter (isScoreField m)

theorem isScoreField_class (m : String → Bool) : isScoreField m "class" = false := rfl

theorem isScoreField_of_ne (m : String → Bool) {f : String} (h : f ≠ "class") :
    isScoreField m f = m f := by
  simp [isScoreField, h]

/-- When the fields to be collected are pairwise distinct and none of
them already sits in the accumulator, the header loop succeeds, and
the final state extends the accumulator by exactly the matched fields;
the label column is set iff it already was or a `class` field
occurs. -/
theorem headerLoop_ok (m : String → Bool) :
    ∀ (fields : List String) (j : ℕ) (acc : HeaderInfo),
      (matchedFields m fields).Nodup →
      (∀ f ∈ fields, f ≠ "class" → f ∉ acc.cls_names) →
      ∃ h, headerLoop m j acc fields = Except.ok h
        ∧ h.cls_names = acc.cls_names ++ matchedFields m fields
        ∧ h.score_col_idx.length = acc.score_col_idx.length + (matchedFields m fields).length
        ∧ (h.label_col_idx = none ↔ acc.label_col_idx = none ∧ "class" ∉ fields) := by
  intro fields
  induction fields with
  | nil =>
      intro j acc _ _
      exact ⟨acc, rfl, by simp [matchedFields], by simp [matchedFields], by simp⟩
  | cons field rest ih =>
      intro j acc hnd hacc
      by_cases hclass : field = "class"
      · subst hclass
        have hm : matchedFields m ("class" :: rest) = matchedFields m rest := by
          simp [matchedFields, List.filter_cons, isScoreField_class]
        rw [hm] at hnd
        obtain ⟨h, hloop, hnames, hlen, hlabel⟩ :=
          ih (j + 1) ⟨acc.cls_names, acc.score_col_idx, some j⟩ hnd
            (fun f hf hne => hacc f (List.mem_cons_of_mem _ hf) hne)
        refine ⟨h, ?_, by rw [hm]; exact hnames, by rw [hm]; exact hlen, ?_⟩
        · rw [headerLoop, if_pos rfl]
          exact hloop
        · rw [hlabel]
          simp
      · by_cases hmatch : m field = true
        · have hm : matchedFields m (field :: rest) = field :: matchedFields m rest := by
            simp [matchedFields, List.filter_cons, isScoreField_of_ne m hclass, hmatch]
          rw [hm] at hnd
          have hfield_notin : field ∉ matchedFields m rest := (List.nodup_cons.mp hnd).1
          have hnd' : (matchedFields m rest).Nodup := (List.nodup_cons.mp hnd).2
          have hnotacc : field ∉ acc.cls_names := hacc field (List.mem_cons_self _ _) hclass
          have haccnew : ∀ f ∈ rest, f ≠ "class" →
              f ∉ (acc.cls_names ++ [field]) := by
            intro f hf hne
            have hf1 : f ∉ acc.cls_names := hacc f (List.mem_cons_of_mem _ hf) hne
            have hf2 : f ≠ field := by
              intro heq
              subst heq
              by_cases hmf : m f = true
              · exact hfield_notin (by
                  simp [matchedFields, List.mem_filter, hf, isScoreField_of_ne m hne, hmf])
              · rw [hmatch] at hmf
                exact hmf rfl
            simp [hf1, hf2]
          obtain ⟨h, hloop, hnames, hlen, hlabel⟩ :=
            ih (j + 1) ⟨acc.cls_names ++ [field], acc.score_col_idx ++ [j], acc.label_col_idx⟩
              hnd' haccnew
          have hcf : ("class" : String) ≠ field := fun hcfeq => hclass hcfeq.symm
          refine ⟨h, ?_, ?_, ?_, ?_⟩
          · rw [headerLoop, if_neg hclass, if_neg hnotacc, if_pos hmatch]
            exact hloop
          · rw [hm, hnames]
            simp
          · rw [hm, hlen]
            simp [Nat.add_comm, Nat.add_assoc, Nat.add_left_comm]
          · rw [hlabel]
            simp [List.mem_cons, hcf]
        · have hm : matchedFields m (field :: rest) = matchedFields m rest := by
            simp [matchedFields, List.filter_cons, isScoreField_of_ne m hclass,
              Bool.not_eq_true _ ▸ hmatch]
          rw [hm] at hnd
          have hnotacc : field ∉ acc.cls_names := hacc field (List.mem_cons_self _ _) hclass
          obtain ⟨h, hloop, hnames, hlen, hlabel⟩ :=
            ih (j + 1) acc hnd (fun f hf hne => hacc f (List.mem_cons_of_mem _ hf) hne)
          have hcf : ("class" : String) ≠ field := fun hcfeq => hclass hcfeq.symm
          refine ⟨h, ?_, by rw [hm]; exact hnames, by rw [hm]; exact hlen, ?_⟩
          · rw [headerLoop, if_neg hclass, if_neg hnotacc, if_neg (by simp [hmatch])]
            exact hloop
          · rw [hlabel]
            simp [List.mem_cons, hcf]

/-- When a field to be collected repeats, or already sits in the
accumulator, the header loop raises the duplicate-team-names error. -/
theorem headerLoop_err (m : String → Bool) :
    ∀ (fields : List String) (j : ℕ) (acc : HeaderInfo),
      (¬ (matchedFields m fields).Nodup ∨ ∃ f ∈ matchedFields m fields, f ∈ acc.cls_names) →
      headerLoop m j acc fields = Except.error ReadError.duplicateTeamNames := by
  intro fields
  induction fields with
  | nil =>
      intro j acc hyp
      exfalso
      rcases hyp with hnd | ⟨f, hf, _⟩
      · exact hnd (by simp [matchedFields])
      · simp [matchedFields] at hf
  | cons field rest ih =>
      intro j acc hyp
      by_cases hclass : field = "class"
      · subst hclass
        have hm : matchedFields m ("class" :: rest) = matchedFields m rest := by
          simp [matchedFields, List.filter_cons, isScoreField_class]
        rw [hm] at hyp
        rw [headerLoop, if_pos rfl]
        exact ih (j + 1) ⟨acc.cls_names, acc.score_col_idx, some j⟩ hyp
      · by_cases hmem : field ∈ acc.cls_names
        · rw [headerLoop, if_neg hclass, if_pos hmem]
        · by_cases hmatch : m field = true
          · have hm : matchedFields m (field :: rest) = field :: matchedFields m rest := by
              simp [matchedFields, List.filter_cons, isScoreField_of_ne m hclass, hmatch]
            rw [hm] at hyp
            rw [headerLoop, if_neg hclass, if_neg hmem, if_pos hmatch]
            refine ih (j + 1)
              ⟨acc.cls_names ++ [field], acc.score_col_idx ++ [j], acc.label_col_idx⟩ ?_
            rcases hyp with hnd | ⟨f, hf, hfacc⟩
            · rw [List.nodup_cons] at hnd
              push_neg at hnd
              by_cases hin : field ∈ matchedFields m rest
              · exact Or.inr ⟨field, hin, by simp⟩
              · exact Or.inl (hnd hin)
            · rcases List.mem_cons.mp hf with heq | hin
              · exact absurd (heq ▸ hfacc) hmem
              · exact Or.inr ⟨f, hin, by simp [hfacc]⟩
          · have hm : matchedFields m (field :: rest) = matchedFields m rest := by
              simp [matchedFields, List.filter_cons, isScoreField_of_ne m hclass,
                Bool.not_eq_true _ ▸ hmatch]
            rw [hm] at hyp
            rw [headerLoop, if_neg hclass, if_neg hmem, if_neg (by simp [hmatch])]
            exact ih (j + 1) acc hyp

/-- C7 counterexample: a header with two `class` columns is accepted
without error (the second `class` column silently overwrites the
recorded label column), so the loader does not enforce the presence of
exactly one `class` column. -/
theorem c7_duplicate_class_accepted :
    decomposeHeader (fun s => s == "m1") ["class", "class", "m1"]
      = Except.ok ⟨["m1"], [2], some 1⟩ := rfl

/-- C7 (amended): the loader rejects its input with a fatal
configuration error exactly when two collected classifier columns
share a name, when zero header columns are collected as classifier
columns, or when no `class` column is present; it enforces the
presence of at least one `class` column (when several are present the
last one is used), and on success the classifier names are the matched
fields in header order. -/
theorem c7_header_validation (m : String → Bool) (fields : List String) :
    ((∃ e, decomposeHeader m fields = Except.error e) ↔
      (¬ (matchedFields m fields).Nodup
        ∨ matchedFields m fields = []
        ∨ "class" ∉ fields))
    ∧ (∀ h, decomposeHeader m fields = Except.ok h →
        h.label_col_idx ≠ none ∧ h.cls_names = matchedFields m fields) := by
  by_cases hnd : (matchedFields m fields).Nodup
  · obtain ⟨h0, hloop, hnames, hlen, hlabel⟩ :=
      headerLoop_ok m fields 0 ⟨[], [], none⟩ hnd
        (fun f hf hne => List.not_mem_nil f)
    by_cases hcls : "class" ∈ fields
    · by_cases hempty : matchedFields m fields = []
      · have hcond : h0.score_col_idx.length = 0 ∨ h0.label_col_idx = none := by
          refine Or.inl ?_
          rw [hlen, hempty]
          rfl
        have hdec : decomposeHeader m fields = Except.error ReadError.couldNotDecompose := by
          simp only [decomposeHeader, hloop]
          rw [if_pos hcond]
        refine ⟨⟨fun _ => Or.inr (Or.inl hempty),
          fun _ => ⟨ReadError.couldNotDecompose, hdec⟩⟩, ?_⟩
        intro h hok
        rw [hdec] at hok
        exact absurd hok (by simp)
      · have hmlen : (matchedFields m fields).length ≠ 0 :=
          fun hq => hempty (List.length_eq_zero.mp hq)
        have hlennz : h0.score_col_idx.length ≠ 0 := by
          rw [hlen]
          simpa using hmlen
        have hlbl : h0.label_col_idx ≠ none :=
          fun hc => (hlabel.mp hc).2 hcls
        have hdec : decomposeHeader m fields = Except.ok h0 := by
          simp only [decomposeHeader, hloop]
          rw [if_neg (not_or.mpr ⟨hlennz, hlbl⟩)]
        constructor
        · constructor
          · rintro ⟨e, he⟩
            rw [hdec] at he
            exact absurd he (by simp)
          · rintro (h1 | h2 | h3)
            · exact absurd hnd h1
            · exact absurd h2 hempty
            · exact absurd hcls h3
        · intro h hok
          rw [hdec] at hok
          have hh : h0 = h := Except.ok.inj hok
          subst hh
          refine ⟨hlbl, ?_⟩
          rw [hnames]
          simp
    · have hlblnone : h0.label_col_idx = none := hlabel.mpr ⟨rfl, hcls⟩
      have hdec : decomposeHeader m fields = Except.error ReadError.couldNotDecompose := by
        simp only [decomposeHeader, hloop]
        rw [if_pos (Or.inr hlblnone)]
      refine ⟨⟨fun _ => Or.inr (Or.inr hcls),
        fun _ => ⟨ReadError.couldNotDecompose, hdec⟩⟩, ?_⟩
      intro h hok
      rw [hdec] at hok
      exact absurd hok (by simp)
  · have herr := headerLoop_err m fields 0 ⟨[], [], none⟩ (Or.inl hnd)
    have hdec : decomposeHeader m fields = Except.error ReadError.duplicateTeamNames := by
      simp only [decomposeHeader, herr]
    refine ⟨⟨fun _ => Or.inl hnd,
      fun _ => ⟨ReadError.duplicateTeamNames, hdec⟩⟩, ?_⟩
    intro h hok
    rw [hdec] at hok
    exact absurd hok (by simp)

/-- C7 witness: on the concrete header with one `class` column and one
matching column, the success clause of the validation theorem applies:
the label column is set and the collected name list is the matched
fields. -/
theorem c7_header_validation_witness :
    (⟨["m1"], [1], some 0⟩ : HeaderInfo).label_col_idx ≠ none
    ∧ (⟨["m1"], [1], some 0⟩ : HeaderInfo).cls_names
        = matchedFields (fun s => s == "m1") ["class", "m1"] :=
  (c7_header_validation (fun s => s == "m1") ["class", "m1"]).2 ⟨["m1"], [1], some 0⟩ rfl

/-- One train/test partition produced by the external fold generator
`cv.stratified_kfold`. -/
structure Fold (Data Labels : Type) where
  trainData : Data
  trainLabels : Labels
  testData : Data
  testLabels : Labels

/-- The interface of a moca-compatible classifier instance as
`auc_by_stratified_cv` uses it: a display name, the `is_supervised`
flag, and the `fit`/`get_scores` operations.  The strategy's fitted
parameters, mutated in place in the source, are made explicit as the
state value returned by `fit` and consumed by `get_scores`; `fit`
receives the training labels exactly when the strategy is
supervised. -/
structure Moca (Data Labels State : Type) where
  name : String
  is_supervised : Bool
  fit : Data → Option Labels → State
  get_scores : State → Data → List ℚ

/-- The per-fold body of `auc_by_stratified_cv` (src/utils.py lines
271-280): fit the strategy on the training partition, passing labels
exactly when `is_supervised`, score the test partition and keep the
third component (the AUC) of the external ROC function. -/
def evalStep {D L S : Type} (roc : List ℚ → L → List ℚ × List ℚ × ℚ)
    (cl : Moca D L S) (f : Fold D L) : ℚ :=
  let st := if cl.is_supervised then cl.fit f.trainData (some f.trainLabels)
    else cl.fit f.trainData none
  (roc (cl.get_scores st f.testData) f.testLabels).2.2

/-- The writes `auc[k, i] = ...` performed by the inner fold loop for
strategy column `i0`, with the fold counter `k` starting from `k0`
(0 in the source). -/
def foldWrites {D L S : Type} (roc : List ℚ → L → List ℚ × List ℚ × ℚ)
    (cl : Moca D L S) (i0 : ℕ) : ℕ → List (Fold D L) → List ((ℕ × ℕ) × ℚ)
  | _, [] => []
  | k, f :: rest => ((k, i0), evalStep roc cl f) :: foldWrites roc cl i0 (k + 1) rest

/-- The outer strategy loop of `auc_by_stratified_cv`: for each
classifier, record its display name, request a fold sequence from the
generator (threading the single generator state `rng` through the
requests), and perform the fold loop's writes into column `i`.
Returns the write trace, the name list and the final generator
state. -/
def stratWrites {D L S : Type} (kfold : D → L → ℕ → ℕ → List (Fold D L) × ℕ)
    (roc : List ℚ → L → List ℚ × List ℚ × ℚ) (data : D) (labels : L) (kfolds : ℕ) :
    List (Moca D L S) → ℕ → ℕ → List ((ℕ × ℕ) × ℚ) × List String × ℕ
  | [], _, rng => ([], [], rng)
  | cl :: rest, i, rng =>
    let fr := kfold data labels kfolds rng
    let res := stratWrites kfold roc data labels kfolds rest (i + 1) fr.2
    (foldWrites roc cl i 0 fr.1 ++ res.1, cl.name :: res.2.1, res.2.2)

/-- `np.random.default_rng(seed)`: the pseudo-random generator state is
modelled as a natural number initialised from the seed; the external
fold generator returns the advanced state. -/
def default_rng (seed : ℕ) : ℕ := seed

/-- Apply a trace of writes `((k, i), v)` to a matrix, later writes
overwriting earlier ones, as numpy assignment does. -/
def applyWrites (ws : List ((ℕ × ℕ) × ℚ)) (m0 : ℕ → ℕ → ℚ) : ℕ → ℕ → ℚ :=
  ws.foldl (fun mt w k i => if k = w.1.1 ∧ i = w.1.2 then w.2 else mt k i) m0

/-- Embedding of `auc_by_stratified_cv` (src/utils.py lines 232-284):
one generator is initialised from the seed, the strategy loop runs
over it, and the zero-initialised AUC matrix receives the loop's
writes; the returned value is the matrix and the name list.  (The
stray fold-generator call after the loop in the source only advances
the discarded generator and has no effect on the returned values.)
The fold generator and the ROC function are external collaborators
passed as function parameters. -/
def auc_by_stratified_cv {D L S : Type} (kfold : D → L → ℕ → ℕ → List (Fold D L) × ℕ)
    (roc : List ℚ → L → List ℚ × List ℚ × ℚ) (data : D) (labels : L)
    (moca_cls : List (Moca D L S)) (kfolds : ℕ) (seed : ℕ) :
    (ℕ → ℕ → ℚ) × List String :=
  let res := stratWrites kfold roc data labels kfolds moca_cls 0 (default_rng seed)
  (applyWrites res.1 (fun _ _ => 0), res.2.1)

/-- The generator state just before the fold-generation request of the
i-th strategy: the initial state advanced by the i preceding
requests. -/
def rngBefore {D L : Type} (kfold : D → L → ℕ → ℕ → List (Fold D L) × ℕ)
    (data : D) (labels : L) (kfolds seed : ℕ) : ℕ → ℕ
  | 0 => default_rng seed
  | i + 1 => (kfold data labels kfolds (rngBefore kfold data labels kfolds seed i)).2

/-- The fold sequence the i-th strategy is evaluated on: the
generator's answer at the state reached after the preceding
requests. -/
def foldsFor {D L : Type} (kfold : D → L → ℕ → ℕ → List (Fold D L) × ℕ)
    (data : D) (labels : L) (kfolds seed i : ℕ) : List (Fold D L) :=
  (kfold data labels kfolds (rngBefore kfold data labels kfolds seed i)).1

/-- The write trace regrouped per strategy, each strategy `t` paired
with the fold sequence generated at its own generator state. -/
def blocksFromBefore {D L S : Type} (kfold : D → L → ℕ → ℕ → List (Fold D L) × ℕ)
    (roc : List ℚ → L → List ℚ × List ℚ × ℚ) (data : D) (labels : L)
    (kfolds seed : ℕ) : List (Moca D L S) → ℕ → List ((ℕ × ℕ) × ℚ)
  | [], _ => []
  | cl :: rest, t =>
    foldWrites roc cl t 0 (foldsFor kfold data labels kfolds seed t)
      ++ blocksFromBefore kfold roc data labels kfolds seed rest (t + 1)

/-- The name list built by the strategy loop is the strategies' names
in list order. -/
theorem stratWrites_names {D L S : Type} (kfold : D → L → ℕ → ℕ → List (Fold D L) × ℕ)
    (roc : List ℚ → L → List ℚ × List ℚ × ℚ) (data : D) (labels : L) (kfolds : ℕ) :
    ∀ (cls : List (Moca D L S)) (t rng : ℕ),
      (stratWrites kfold roc data labels kfolds cls t rng).2.1 = cls.map Moca.name := by
  intro cls
  induction cls with
  | nil => intro t rng; rfl
  | cons cl rest ih =>
      intro t rng
      simp only [stratWrites, List.map_cons]
      rw [ih]

/-- The strategy loop started at the state reached after `t` requests
produces exactly the per-strategy blocks of writes generated at the
successive generator states. -/
theorem stratWrites_eq_blocks {D L S : Type} (kfold : D → L → ℕ → ℕ → List (Fold D L) × ℕ)
    (roc : List ℚ → L → List ℚ × List ℚ × ℚ) (data : D) (labels : L) (kfolds seed : ℕ) :
    ∀ (cls : List (Moca D L S)) (t : ℕ),
      (stratWrites kfold roc data labels kfolds cls t
        (rngBefore kfold data labels kfolds seed t)).1
        = blocksFromBefore kfold roc data labels kfolds seed cls t := by
  intro cls
  induction cls with
  | nil => intro t; rfl
  | cons cl rest ih =>
      intro t
      simp only [stratWrites, blocksFromBefore, foldsFor]
      have h2 : (kfold data labels kfolds (rngBefore kfold data labels kfolds seed t)).2
          = rngBefore kfold data labels kfolds seed (t + 1) := rfl
      rw [h2, ih (t + 1)]

/-- C3: the evaluator is a pure function of the seed, the score
matrix, the labels, the strategy list and the fold count (all
generator state is initialised from the seed and threaded explicitly),
so two runs with identical inputs return an identical AUC matrix and
an identical name list. -/
theorem c3_evaluator_deterministic {D L S : Type}
    (kfold kfold' : D → L → ℕ → ℕ → List (Fold D L) × ℕ)
    (roc roc' : List ℚ → L → List ℚ × List ℚ × ℚ) (data data' : D) (labels labels' : L)
    (moca_cls moca_cls' : List (Moca D L S)) (kfolds kfolds' seed seed' : ℕ)
    (h1 : kfold = kfold') (h2 : roc = roc') (h3 : data = data') (h4 : labels = labels')
    (h5 : moca_cls = moca_cls') (h6 : kfolds = kfolds') (h7 : seed = seed') :
    auc_by_stratified_cv kfold roc data labels moca_cls kfolds seed
      = auc_by_stratified_cv kfold' roc' data' labels' moca_cls' kfolds' seed' := by
  subst h1 h2 h3 h4 h5 h6 h7
  rfl

/-- Concrete fold generator for witnesses: one fold per request, state
advanced by one. -/
def kfoldW : ℕ → ℕ → ℕ → ℕ → List (Fold ℕ ℕ) × ℕ :=
  fun d l _ r => ([⟨d, l, d, l⟩], r + 1)

/-- Concrete ROC function for witnesses. -/
def rocW : List ℚ → ℕ → List ℚ × List ℚ × ℚ := fun _ _ => ([], [], 1 / 2)

/-- Concrete unsupervised strategy for witnesses. -/
def mocaW : Moca ℕ ℕ ℕ := ⟨"m", false, fun _ _ => 0, fun _ _ => [0]⟩

/-- C3 witness: two runs of the evaluator on the same concrete inputs
agree. -/
theorem c3_evaluator_deterministic_witness :
    auc_by_stratified_cv kfoldW rocW 0 0 [mocaW] 1 7
      = auc_by_stratified_cv kfoldW rocW 0 0 [mocaW] 1 7 :=
  c3_evaluator_deterministic kfoldW kfoldW rocW rocW 0 0 0 0 [mocaW] [mocaW] 1 1 7 7
    rfl rfl rfl rfl rfl rfl rfl

/-- C6: the evaluator initialises exactly one generator from the seed
(`rngBefore 0`), threads its state sequentially through the
fold-generation requests (each successive strategy's folds are
generated at the state left by the previous request, and the write
trace decomposes accordingly), and when every request strictly
advances the state, distinct strategies draw from distinct generator
states. -/
theorem c6_rng_threading {D L S : Type} (kfold : D → L → ℕ → ℕ → List (Fold D L) × ℕ)
    (roc : List ℚ → L → List ℚ × List ℚ × ℚ) (data : D) (labels : L)
    (moca_cls : List (Moca D L S)) (kfolds seed : ℕ) :
    (stratWrites kfold roc data labels kfolds moca_cls 0 (default_rng seed)).1
        = blocksFromBefore kfold roc data labels kfolds seed moca_cls 0
    ∧ rngBefore kfold data labels kfolds seed 0 = default_rng seed
    ∧ (∀ t, rngBefore kfold data labels kfolds seed (t + 1)
        = (kfold data labels kfolds (rngBefore kfold data labels kfolds seed t)).2)
    ∧ ((∀ d l k r, r < (kfold d l k r).2) →
        ∀ s t : ℕ, s < t →
          rngBefore kfold data labels kfolds seed s
            ≠ rngBefore kfold data labels kfolds seed t) := by
  refine ⟨?_, rfl, fun t => rfl, ?_⟩
  · have h0 : rngBefore kfold data labels kfolds seed 0 = default_rng seed := rfl
    rw [← h0]
    exact stratWrites_eq_blocks kfold roc data labels kfolds seed moca_cls 0
  · intro hadv s t hst
    have hmono : StrictMono (rngBefore kfold data labels kfolds seed) := by
      refine strictMono_nat_of_lt_succ ?_
      intro n
      exact hadv data labels kfolds (rngBefore kfold data labels kfolds seed n)
    exact (hmono hst).ne

/-- C6 witness: with the concrete strictly advancing fold generator,
the generator states of strategies 0 and 1 differ. -/
theorem c6_rng_threading_witness :
    rngBefore kfoldW (0 : ℕ) (0 : ℕ) 1 5 0 ≠ rngBefore kfoldW 0 0 1 5 1 :=
  (c6_rng_threading kfoldW rocW 0 0 [mocaW] 1 5).2.2.2
    (fun _ _ _ r => Nat.lt_succ_self r) 0 1 (by decide)

/-- Key multiplicity of the fold loop's writes: within one strategy
column every fold index in range is written exactly once. -/
theorem count_foldWrites_keys {D L S : Type} (roc : List ℚ → L → List ℚ × List ℚ × ℚ)
    (cl : Moca D L S) (i0 : ℕ) :
    ∀ (folds : List (Fold D L)) (k0 k i : ℕ),
      ((foldWrites roc cl i0 k0 folds).map Prod.fst).count (k, i)
        = if i = i0 ∧ k0 ≤ k ∧ k < k0 + folds.length then 1 else 0 := by
  intro folds
  induction folds with
  | nil =>
      intro k0 k i
      simp only [foldWrites, List.map_nil, List.count_nil, List.length_nil]
      split_ifs with h
      · omega
      · rfl
  | cons f rest ih =>
      intro k0 k i
      simp only [foldWrites, List.map_cons, List.count_cons, List.length_cons, ih (k0 + 1),
        beq_iff_eq, Prod.mk.injEq]
      split_ifs <;> omega

/-- Key multiplicity of the strategy loop's writes: under the fold
generator contract (exactly `kfolds` folds per request), every cell
with fold index below `kfolds` and strategy index in range is written
exactly once, and no other cell is written. -/
theorem count_stratWrites_keys {D L S : Type} (kfold : D → L → ℕ → ℕ → List (Fold D L) × ℕ)
    (roc : List ℚ → L → List ℚ × List ℚ × ℚ) (data : D) (labels : L) (kfolds : ℕ)
    (hgen : ∀ r, (kfold data labels kfolds r).1.length = kfolds) :
    ∀ (cls : List (Moca D L S)) (t rng k i : ℕ),
      ((stratWrites kfold roc data labels kfolds cls t rng).1.map Prod.fst).count (k, i)
        = if k < kfolds ∧ t ≤ i ∧ i < t + cls.length then 1 else 0 := by
  intro cls
  induction cls with
  | nil =>
      intro t rng k i
      simp only [stratWrites, List.map_nil, List.count_nil, List.length_nil]
      split_ifs with h
      · omega
      · rfl
  | cons cl rest ih =>
      intro t rng k i
      simp only [stratWrites, List.map_append, List.count_append, List.length_cons,
        count_foldWrites_keys, ih (t + 1), hgen rng]
      split_ifs <;> omega

/-- Cells never written keep the initial matrix value. -/
theorem applyWrites_not_mem :
    ∀ (ws : List ((ℕ × ℕ) × ℚ)) (m0 : ℕ → ℕ → ℚ) (k i : ℕ),
      (k, i) ∉ ws.map Prod.fst → applyWrites ws m0 k i = m0 k i := by
  intro ws
  induction ws with
  | nil => intro m0 k i _; rfl
  | cons w rest ih =>
      intro m0 k i hnm
      rw [List.map_cons, List.mem_cons, not_or] at hnm
      simp only [applyWrites, List.foldl_cons]
      rw [show (List.foldl (fun mt w k i => if k = w.1.1 ∧ i = w.1.2 then w.2 else mt k i)
        (fun k i => if k = w.1.1 ∧ i = w.1.2 then w.2 else m0 k i) rest : ℕ → ℕ → ℚ)
          = applyWrites rest (fun k i => if k = w.1.1 ∧ i = w.1.2 then w.2 else m0 k i)
        from rfl]
      rw [ih _ k i hnm.2]
      refine if_neg fun hc => hnm.1 ?_
      rw [Prod.ext_iff]
      exact ⟨hc.1, hc.2⟩

/-- A cell written exactly once holds the value of its write. -/
theorem applyWrites_count_one :
    ∀ (ws : List ((ℕ × ℕ) × ℚ)) (m0 : ℕ → ℕ → ℚ) (k i : ℕ) (v : ℚ),
      ((k, i), v) ∈ ws → (ws.map Prod.fst).count (k, i) = 1 →
      applyWrites ws m0 k i = v := by
  intro ws
  induction ws with
  | nil => intro m0 k i v hmem _; exact absurd hmem (List.not_mem_nil _)
  | cons w rest ih =>
      intro m0 k i v hmem hcount
      rw [List.map_cons, List.count_cons] at hcount
      simp only [applyWrites, List.foldl_cons]
      rw [show (List.foldl (fun mt w k i => if k = w.1.1 ∧ i = w.1.2 then w.2 else mt k i)
        (fun k i => if k = w.1.1 ∧ i = w.1.2 then w.2 else m0 k i) rest : ℕ → ℕ → ℚ)
          = applyWrites rest (fun k i => if k = w.1.1 ∧ i = w.1.2 then w.2 else m0 k i)
        from rfl]
      by_cases hw : w.1 = (k, i)
      · have hbeq : (w.1 == ((k, i) : ℕ × ℕ)) = true := beq_iff_eq.mpr hw
        rw [hbeq, if_pos rfl] at hcount
        have hzero : (rest.map Prod.fst).count (k, i) = 0 := by omega
        have hnm : (k, i) ∉ rest.map Prod.fst := List.count_eq_zero.mp hzero
        have hv : w.2 = v := by
          rcases List.mem_cons.mp hmem with heq | hin
          · rw [← heq]
          · exact absurd (List.mem_map_of_mem Prod.fst hin) hnm
        rw [applyWrites_not_mem rest _ k i hnm]
        rw [if_pos ⟨congrArg Prod.fst hw.symm, congrArg Prod.snd hw.symm⟩]
        exact hv
      · have hbeq : (w.1 == ((k, i) : ℕ × ℕ)) = false := by
          rw [beq_eq_false_iff_ne]
          exact hw
        rw [hbeq, if_neg (by simp)] at hcount
        have hin : ((k, i), v) ∈ rest := by
          rcases List.mem_cons.mp hmem with heq | hin
          · exact absurd (congrArg Prod.fst heq.symm) hw
          · exact hin
        exact ih _ k i v hin (by omega)

/-- The fold loop writes the evaluation of fold `k` at fold index
`k0 + k`. -/
theorem foldWrites_mem {D L S : Type} (roc : List ℚ → L → List ℚ × List ℚ × ℚ)
    (cl : Moca D L S) (i0 : ℕ) :
    ∀ (folds : List (Fold D L)) (k0 k : ℕ) (f : Fold D L),
      folds[k]? = some f →
      ((k0 + k, i0), evalStep roc cl f) ∈ foldWrites roc cl i0 k0 folds := by
  intro folds
  induction folds with
  | nil =>
      intro k0 k f hf
      simp at hf
  | cons f0 rest ih =>
      intro k0 k f hf
      cases k with
      | zero =>
          have hf0 : f0 = f := by simpa using hf
          subst hf0
          rw [Nat.add_zero]
          exact List.mem_cons_self _ _
      | succ kp =>
          have hrest : rest[kp]? = some f := by simpa using hf
          have hmem := ih (k0 + 1) kp f hrest
          have harith : k0 + (kp + 1) = k0 + 1 + kp := by omega
          rw [harith]
          exact List.mem_cons_of_mem _ hmem

/-- The regrouped write trace contains, for each strategy `i` of the
list and each fold `k` of that strategy's own fold sequence, the write
of the corresponding evaluation. -/
theorem blocksFromBefore_mem {D L S : Type} (kfold : D → L → ℕ → ℕ → List (Fold D L) × ℕ)
    (roc : List ℚ → L → List ℚ × List ℚ × ℚ) (data : D) (labels : L) (kfolds seed : ℕ) :
    ∀ (cls : List (Moca D L S)) (t i : ℕ) (cl : Moca D L S) (k : ℕ) (f : Fold D L),
      cls[i]? = some cl →
      (foldsFor kfold data labels kfolds seed (t + i))[k]? = some f →
      ((k, t + i), evalStep roc cl f)
        ∈ blocksFromBefore kfold roc data labels kfolds seed cls t := by
  intro cls
  induction cls with
  | nil =>
      intro t i cl k f hcl _
      simp at hcl
  | cons cl0 rest ih =>
      intro t i cl k f hcl hf
      cases i with
      | zero =>
          have hcl0 : cl0 = cl := by simpa using hcl
          subst hcl0
          rw [Nat.add_zero] at hf ⊢
          refine List.mem_append_left _ ?_
          have hmem := foldWrites_mem roc cl0 t (foldsFor kfold data labels kfolds seed t) 0 k f hf
          rwa [Nat.zero_add] at hmem
      | succ ip =>
          have hrest : rest[ip]? = some cl := by simpa using hcl
          have harith : t + (ip + 1) = (t + 1) + ip := by omega
          rw [harith] at hf ⊢
          exact List.mem_append_right _ (ih (t + 1) ip cl k f hrest hf)

/-- C5: when the fold generator honours its contract of returning
exactly `kfolds` folds per request, the evaluator's result has the
shape `kfolds` by number of strategies: the write trace touches every
cell with fold index below `kfolds` and strategy index in range
exactly once and no other cell, the returned matrix holds at cell
(k, i) the AUC of strategy i evaluated on fold k of its own fold
sequence, and the returned name list is the strategies' display names
in list order. -/
theorem c5_auc_matrix {D L S : Type} (kfold : D → L → ℕ → ℕ → List (Fold D L) × ℕ)
    (roc : List ℚ → L → List ℚ × List ℚ × ℚ) (data : D) (labels : L)
    (moca_cls : List (Moca D L S)) (kfolds seed : ℕ)
    (hK : 0 < kfolds)
    (hgen : ∀ r, (kfold data labels kfolds r).1.length = kfolds) :
    (auc_by_stratified_cv kfold roc data labels moca_cls kfolds seed).2
        = moca_cls.map Moca.name
    ∧ (∀ k i : ℕ,
        ((stratWrites kfold roc data labels kfolds moca_cls 0 (default_rng seed)).1.map
          Prod.fst).count (k, i)
          = if k < kfolds ∧ i < moca_cls.length then 1 else 0)
    ∧ (∀ (k i : ℕ) (cl : Moca D L S) (f : Fold D L), k < kfolds →
        moca_cls[i]? = some cl →
        (foldsFor kfold data labels kfolds seed i)[k]? = some f →
        (auc_by_stratified_cv kfold roc data labels moca_cls kfolds seed).1 k i
          = evalStep roc cl f) := by
  refine ⟨?_, ?_, ?_⟩
  · exact stratWrites_names kfold roc data labels kfolds moca_cls 0 (default_rng seed)
  · intro k i
    rw [count_stratWrites_keys kfold roc data labels kfolds hgen moca_cls 0 (default_rng seed) k i]
    split_ifs <;> omega
  · intro k i cl f hk hcl hf
    have hlen : i < moca_cls.length := by
      by_contra hge
      rw [List.getElem?_eq_none (by omega)] at hcl
      exact Option.noConfusion hcl
    have hmem : ((k, i), evalStep roc cl f)
        ∈ (stratWrites kfold roc data labels kfolds moca_cls 0 (default_rng seed)).1 := by
      have h0 : default_rng seed = rngBefore kfold data labels kfolds seed 0 := rfl
      rw [h0, stratWrites_eq_blocks]
      have hmem0 := blocksFromBefore_mem kfold roc data labels kfolds seed moca_cls 0 i cl k f
        hcl (by rwa [Nat.zero_add])
      rwa [Nat.zero_add] at hmem0
    have hcount : ((stratWrites kfold roc data labels kfolds moca_cls 0
        (default_rng seed)).1.map Prod.fst).count (k, i) = 1 := by
      rw [count_stratWrites_keys kfold roc data labels kfolds hgen moca_cls 0
        (default_rng seed) k i]
      rw [if_pos ⟨hk, by omega, by omega⟩]
    exact applyWrites_count_one _ _ k i _ hmem hcount

/-- C5 witness: with the concrete one-fold-per-request generator, the
theorem applies at fold 0 and strategy 0; the returned cell is the
evaluation of the single fold and the name list is the display
name. -/
theorem c5_auc_matrix_witness :
    (auc_by_stratified_cv kfoldW rocW 0 0 [mocaW] 1 5).1 0 0
        = evalStep rocW mocaW ⟨0, 0, 0, 0⟩
    ∧ (auc_by_stratified_cv kfoldW rocW 0 0 [mocaW] 1 5).2 = ["m"] := by
  have h := c5_auc_matrix kfoldW rocW 0 0 [mocaW] 1 5 (by decide) (fun r => rfl)
  refine ⟨h.2.2 0 0 mocaW ⟨0, 0, 0, 0⟩ (by decide) rfl rfl, ?_⟩
  rw [h.1]
  rfl
